import Mathlib

/-!
Verification development for the vessel-data ingestion and filtering pipeline
(`parallel_insert.py`, `full_filter.py`, `fault_tolerance_demo.py`).

The Python code is shallowly embedded: records are association lists from field
names to scalar values, the MongoDB store is abstracted by oracles (a function
from vessel key to its documents, per-attempt success oracles for inserts), and
each retry loop is embedded as structural recursion on the number of remaining
loop iterations.  Machine floats are modelled by exact rationals plus explicit
NaN/infinity markers; Python `float(...)` string parsing is modelled for
decimal numerals with optional sign, fraction, exponent and the nan/inf
spellings (exotic forms such as underscore separators are out of scope).
-/

/-- A scalar value stored in a record: Python `None`, a string, a finite
number (int or float, modelled exactly as a rational), float NaN, or the two
float infinities. -/
inductive Value : Type
  | vNull : Value
  | vStr (s : String) : Value
  | vNum (q : ℚ) : Value
  | vNaN : Value
  | vInf : Value
  | vNInf : Value
deriving DecidableEq

/-- Result of Python `float(...)`: a finite value, NaN, or an infinity. -/
inductive PFloat : Type
  | fin (q : ℚ) : PFloat
  | nan : PFloat
  | inf : PFloat
  | ninf : PFloat
deriving DecidableEq

/-- Negation of a parsed float, used for a leading minus sign
(`float("-nan")` is NaN in Python). -/
def PFloat.neg : PFloat → PFloat
  | PFloat.fin q => PFloat.fin (Rat.neg q)
  | PFloat.nan => PFloat.nan
  | PFloat.inf => PFloat.ninf
  | PFloat.ninf => PFloat.inf

/-- Numeric value of a list of decimal digit characters. -/
def digitsVal (ds : List Char) : Nat :=
  ds.foldl (fun n c => n * 10 + (c.toNat - 48)) 0

/-- Parse an unsigned decimal mantissa: digits with an optional single dot,
at least one digit overall (mirrors what Python `float` accepts for the
mantissa part).  The result `(n, flen)` denotes the rational
`n / 10 ^ flen`, kept unreduced so all arithmetic is on naturals. -/
def parseUnsignedDec (s : List Char) : Option (Nat × Nat) :=
  let ip := s.takeWhile Char.isDigit
  let rest := s.dropWhile Char.isDigit
  match rest with
  | [] => if ip.isEmpty then none else some (digitsVal ip, 0)
  | '.' :: fp =>
      if fp.all Char.isDigit && !(ip.isEmpty && fp.isEmpty) then
        some (digitsVal ip * 10 ^ fp.length + digitsVal fp, fp.length)
      else none
  | _ => none

/-- ASCII lowercase of one character, modelling Python `str.lower` on the
ASCII range (the field values of interest are ASCII). -/
def lowerChar (c : Char) : Char :=
  if 'A' ≤ c ∧ c ≤ 'Z' then Char.ofNat (c.toNat + 32) else c

/-- Lowercase a character list (model of `str.lower`). -/
def lowerStr (s : List Char) : List Char :=
  s.map lowerChar

/-- Strip leading and trailing whitespace (model of the stripping Python
`float` applies to its string argument). -/
def trimChars (s : List Char) : List Char :=
  ((s.dropWhile Char.isWhitespace).reverse.dropWhile Char.isWhitespace).reverse

/-- Parse an optionally signed run of decimal digits (the exponent part). -/
def parseSignedInt : List Char → Option ℤ
  | '+' :: r => if !r.isEmpty && r.all Char.isDigit then some ((digitsVal r : ℤ)) else none
  | '-' :: r => if !r.isEmpty && r.all Char.isDigit then some (-(digitsVal r : ℤ)) else none
  | r => if !r.isEmpty && r.all Char.isDigit then some ((digitsVal r : ℤ)) else none

/-- Split a character list at the first `e` (input is already lowercased),
returning the mantissa and, when present, the exponent characters. -/
def splitAtExp (s : List Char) : List Char × Option (List Char) :=
  match s.span (fun c => c != 'e') with
  | (m, []) => (m, none)
  | (m, _ :: rest) => (m, some rest)

/-- Parse a lowercased, unsigned float body: the nan/inf spellings or a
decimal mantissa with optional exponent. -/
def parsePyFloatChars (body : List Char) : Option PFloat :=
  if body = "nan".toList then some PFloat.nan
  else if body = "inf".toList ∨ body = "infinity".toList then some PFloat.inf
  else
    match splitAtExp body with
    | (m, eopt) =>
      match parseUnsignedDec m with
      | none => none
      | some (n, flen) =>
        match eopt with
        | none => some (PFloat.fin (Rat.divInt (n : ℤ) ((10 : ℤ) ^ flen)))
        | some es =>
          match parseSignedInt es with
          | none => none
          | some e =>
            if 0 ≤ e then
              some (PFloat.fin (Rat.divInt ((n : ℤ) * (10 : ℤ) ^ e.toNat) ((10 : ℤ) ^ flen)))
            else
              some (PFloat.fin (Rat.divInt (n : ℤ) ((10 : ℤ) ^ flen * (10 : ℤ) ^ (-e).toNat)))

/-- Model of Python `float(s)` on a string: strip surrounding whitespace,
lowercase, handle an optional sign, then parse the body; `none` models a
`ValueError`. -/
def parsePyFloat (s : String) : Option PFloat :=
  match lowerStr (trimChars s.toList) with
  | '+' :: r => parsePyFloatChars r
  | '-' :: r => (parsePyFloatChars r).map PFloat.neg
  | r => parsePyFloatChars r

/-- Model of Python `float(v)` on a record value; `none` models the
`ValueError`/`TypeError` cases (`float(None)` raises `TypeError`). -/
def pyFloatOfValue : Value → Option PFloat
  | Value.vNull => none
  | Value.vStr s => parsePyFloat s
  | Value.vNum q => some (PFloat.fin q)
  | Value.vNaN => some PFloat.nan
  | Value.vInf => some PFloat.inf
  | Value.vNInf => some PFloat.ninf

/-- A document: an association list from field names to values (Python dicts
never hold duplicate keys, and lookup returns the first match). -/
abbrev Doc := List (String × Value)

/-- First-match field lookup, modelling `doc[field]` / `field in doc`. -/
def lookupF : Doc → String → Option Value
  | [], _ => none
  | (k, v) :: rest, f => if k = f then some v else lookupF rest f

/-- Update the value stored at an existing key, modelling `doc[field] = val`. -/
def setF (d : Doc) (f : String) (v : Value) : Doc :=
  d.map (fun p => if p.1 = f then (f, v) else p)

/-- Model of `del doc[_id]` at `full_filter.py` lines 55-56. -/
def removeId (d : Doc) : Doc :=
  d.filter (fun p => p.1 != "_id")

/-- Retry count shared by all three scripts (`MAX_RETRIES = 3`). -/
def MAX_RETRIES : Nat := 3

/-- Base retry delay in seconds shared by all three scripts (`RETRY_DELAY = 5`). -/
def RETRY_DELAY : Nat := 5

/-- The required fields checked at `full_filter.py` line 59. -/
def REQUIRED_FIELDS : List String := ["MMSI", "Latitude", "Longitude", "Navigational status"]

/-- The numeric fields coerced at `full_filter.py` line 73. -/
def NUMERIC_FIELDS : List String := ["ROT", "SOG", "COG", "Heading"]

/-- One conjunct of the required-field check (`full_filter.py` lines 60-67):
the field is present, not `None`, its string form lowercased is not `nan`,
it is not the empty string, and `pd.isna` rejects it.  For a finite number
or an infinity every one of those tests passes; float NaN fails both the
string test and `pd.isna`; `pd.isna` is false on every string. -/
def fieldOk (doc : Doc) (f : String) : Bool :=
  match lookupF doc f with
  | none => false
  | some Value.vNull => false
  | some Value.vNaN => false
  | some (Value.vStr s) => decide (lowerStr s.toList ≠ "nan".toList) && decide (s ≠ "")
  | some (Value.vNum _) => true
  | some Value.vInf => true
  | some Value.vNInf => true

/-- The full required-field check `has_required` (`full_filter.py` lines 60-67). -/
def hasRequired (doc : Doc) : Bool :=
  REQUIRED_FIELDS.all (fieldOk doc)

/-- The value written back by the numeric-coercion block (`full_filter.py`
lines 76-83): the parsed float when it is finite or infinite, `None` when the
parse yields NaN (`pd.isna(val)`) and `None` when `float` raises. -/
def coerceValue (v : Value) : Value :=
  match pyFloatOfValue v with
  | some (PFloat.fin q) => Value.vNum q
  | some PFloat.nan => Value.vNull
  | some PFloat.inf => Value.vInf
  | some PFloat.ninf => Value.vNInf
  | none => Value.vNull

/-- Coercion of one numeric field (`full_filter.py` lines 74-83): only a
present, non-`None` field is rewritten. -/
def coerceField (doc : Doc) (f : String) : Doc :=
  match lookupF doc f with
  | none => doc
  | some v => if v = Value.vNull then doc else setF doc f (coerceValue v)

/-- The numeric-coercion loop over `ROT`, `SOG`, `COG`, `Heading`
(`full_filter.py` lines 72-83). -/
def coerceNumerics (doc : Doc) : Doc :=
  NUMERIC_FIELDS.foldl coerceField doc

/-- Per-document processing inside the vessel loop (`full_filter.py` lines
53-86): remove `_id`, drop the document unless the required fields check out,
otherwise coerce the numeric fields and keep it. -/
def processDoc (doc : Doc) : Option Doc :=
  let d := removeId doc
  if hasRequired d then some (coerceNumerics d) else none

/-- The `filtered` list accumulated for one vessel (`full_filter.py`
lines 52-86). -/
def vesselFiltered (docs : List Doc) : List Doc :=
  docs.filterMap processDoc

/-- The documents of one vessel group that reach the target collection:
none when the group has fewer than 100 documents (`full_filter.py` line 48),
otherwise the survivors of the per-document checks. -/
def processVessel (docs : List Doc) : List Doc :=
  if docs.length < 100 then [] else vesselFiltered docs

/-- Fuel-driven worker for `chunksOf`; the fuel is an upper bound on the
number of chunks, instantiated with the list length. -/
def chunksOfAux (C : Nat) : Nat → List α → List (List α)
  | 0, _ => []
  | _, [] => []
  | fuel + 1, l => l.take C :: chunksOfAux C fuel (l.drop C)

/-- Split a list into consecutive chunks of `C` elements, the last chunk
possibly shorter.  This is the shape shared by the `filtered[i:i + batch_size]`
slicing at `full_filter.py` lines 91-92 and the `pd.read_csv(..., chunksize=C)`
reader at `parallel_insert.py` line 114. -/
def chunksOf (C : Nat) (l : List α) : List (List α) :=
  chunksOfAux C l.length l

/-- The insert sub-batch size at `full_filter.py` line 90. -/
def INSERT_BATCH_SIZE : Nat := 500

/-- Result of the write phase for one vessel (`full_filter.py` lines 88-97):
the documents handed to `insert_many` in order, and the number of
`insert_many` calls made. -/
structure VesselOutcome where
  written : List Doc
  insertCalls : Nat
deriving DecidableEq

/-- The write phase for one vessel group (`full_filter.py` lines 88-97):
nothing is inserted for a small group or when `filtered` is empty; otherwise
`filtered` is written in sub-batches of `INSERT_BATCH_SIZE`. -/
def vesselWrites (docs : List Doc) : VesselOutcome :=
  if docs.length < 100 then ⟨[], 0⟩
  else
    let filtered := vesselFiltered docs
    if filtered = [] then ⟨[], 0⟩
    else ⟨(chunksOf INSERT_BATCH_SIZE filtered).flatten, (chunksOf INSERT_BATCH_SIZE filtered).length⟩

/-- The per-batch accumulators of `process_vessel_batch` (`full_filter.py`
lines 36-39) together with the write trace. -/
structure BatchResult where
  vesselsProcessed : Nat
  vesselsFiltered : Nat
  totalDocs : Nat
  filteredDocs : Nat
  written : List Doc
  insertCalls : Nat
deriving DecidableEq

/-- One iteration of the `for mmsi in mmsi_batch` loop (`full_filter.py`
lines 41-97).  `source` abstracts `db[SOURCE_COLLECTION].find` on one key. -/
def batchStep (source : Value → List Doc) (r : BatchResult) (mmsi : Value) : BatchResult :=
  let docs := source mmsi
  let r1 : BatchResult :=
    { r with totalDocs := r.totalDocs + docs.length,
             vesselsProcessed := r.vesselsProcessed + 1 }
  if docs.length < 100 then r1
  else
    let filtered := vesselFiltered docs
    if filtered = [] then r1
    else
      { r1 with
        written := r1.written ++ (chunksOf INSERT_BATCH_SIZE filtered).flatten,
        insertCalls := r1.insertCalls + (chunksOf INSERT_BATCH_SIZE filtered).length,
        filteredDocs := r1.filteredDocs + filtered.length,
        vesselsFiltered := r1.vesselsFiltered + 1 }

/-- The successful body of `process_vessel_batch` (`full_filter.py` lines
36-100): fold the per-vessel step over the batch starting from zeroed
counters. -/
def processBatchPure (source : Value → List Doc) (batch : List Value) : BatchResult :=
  batch.foldl (batchStep source) ⟨0, 0, 0, 0, [], 0⟩

/-- Observable outcome of one run of the `process_vessel_batch` retry loop:
the returned counter tuple (`none` only in the vacuous `MAX_RETRIES = 0`
case, where the Python loop body never runs and the function returns `None`),
the number of attempts that executed the body, and the backoff delays slept. -/
structure VBRun where
  result : Option (Nat × Nat × Nat × Nat)
  attempts : Nat
  sleeps : List Nat
deriving DecidableEq

/-- The retry loop of `process_vessel_batch` (`full_filter.py` lines 31-108),
by recursion on the remaining loop iterations; `attemptOk k` tells whether
attempt `k` (0-based) runs to `return` without an exception. -/
def vbGo (attemptOk : Nat → Bool) (maxRetries : Nat) (source : Value → List Doc)
    (batch : List Value) : Nat → Nat → VBRun
  | _, 0 => ⟨none, 0, []⟩
  | k, left + 1 =>
    if attemptOk k then
      let r := processBatchPure source batch
      ⟨some (r.vesselsProcessed, r.vesselsFiltered, r.totalDocs, r.filteredDocs), 1, []⟩
    else if k < maxRetries - 1 then
      let rest := vbGo attemptOk maxRetries source batch (k + 1) left
      ⟨rest.result, rest.attempts + 1, RETRY_DELAY :: rest.sleeps⟩
    else
      ⟨some (0, 0, 0, 0), 1, []⟩

/-- Model of `process_vessel_batch` (`full_filter.py` lines 29-108). -/
def process_vessel_batch (attemptOk : Nat → Bool) (maxRetries : Nat)
    (source : Value → List Doc) (batch : List Value) : VBRun :=
  vbGo attemptOk maxRetries source batch 0 maxRetries

/-- Observable outcome of one run of `process_chunk`: the value returned
(`none` only in the vacuous `MAX_RETRIES = 0` case), the number of bulk-insert
attempts (each one a fresh connection plus `insert_many`), the number of times
the per-record fallback ran, and the backoff delays slept. -/
structure ChunkRun where
  result : Option Nat
  bulkAttempts : Nat
  fallbackRuns : Nat
  sleeps : List Nat
deriving DecidableEq

/-- The per-record fallback of `process_chunk` (`parallel_insert.py` lines
51-67): on a successful reconnect every record is tried with `insert_one`,
individual failures are skipped, and the count of successes is returned; if
the fallback path itself fails the chunk contributes `0`. -/
def chunkFallback (reconnectOk : Bool) (records : List α) (oneOk : α → Bool) : Nat :=
  if reconnectOk then records.countP (fun r => oneOk r) else 0

/-- The retry loop of `process_chunk` (`parallel_insert.py` lines 36-67), by
recursion on the remaining loop iterations; `bulkOk k` tells whether the bulk
attempt `k` (0-based) succeeds. -/
def processChunkGo (bulkOk : Nat → Bool) (reconnectOk : Bool) (records : List α)
    (oneOk : α → Bool) (maxRetries : Nat) : Nat → Nat → ChunkRun
  | _, 0 => ⟨none, 0, 0, []⟩
  | k, left + 1 =>
    if bulkOk k then ⟨some records.length, 1, 0, []⟩
    else if k < maxRetries - 1 then
      let rest := processChunkGo bulkOk reconnectOk records oneOk maxRetries (k + 1) left
      ⟨rest.result, rest.bulkAttempts + 1, rest.fallbackRuns, RETRY_DELAY :: rest.sleeps⟩
    else
      ⟨some (chunkFallback reconnectOk records oneOk), 1, 1, []⟩

/-- Model of `process_chunk` (`parallel_insert.py` lines 34-67). -/
def process_chunk (bulkOk : Nat → Bool) (reconnectOk : Bool) (records : List α)
    (oneOk : α → Bool) (maxRetries : Nat) : ChunkRun :=
  processChunkGo bulkOk reconnectOk records oneOk maxRetries 0 maxRetries

/-- The truncation applied to each chunk read within one super-batch
(`parallel_insert.py` lines 121-124).  `tot` is `total_inserted` as of the
start of the super-batch: the Python loop updates `total_inserted` only in
the pool-result loop, after all chunks of the super-batch were read, so every
chunk of one super-batch is compared against the same stale count. -/
def windowEmit (T tot : Nat) (chs : List (List α)) : List (List α) :=
  chs.map (fun ch => if T < tot + ch.length then ch.take (T - tot) else ch)

/-- The super-batch loop of `main` (`parallel_insert.py` lines 109-149),
assuming every insert succeeds (`process_chunk` then returns the chunk
length).  Each window `(s, e)` re-reads the CSV and keeps chunk indices
`s ≤ i < e`; after the pool drains, the loop stops once `total_inserted`
reached `T`. -/
def feedLoop (L : List (List α)) (T : Nat) : List (Nat × Nat) → Nat → List (List α)
  | [], _ => []
  | (s, e) :: ws, tot =>
    let emitted := windowEmit T tot ((L.drop s).take (e - s))
    let tot2 := tot + (emitted.map List.length).sum
    if T ≤ tot2 then emitted else emitted ++ feedLoop L T ws tot2

/-- The super-batch windows of `main` (`parallel_insert.py` lines 105-110):
`range(0, total_chunks, batch_size)` paired with
`batch_end = min(batch_start + batch_size, total_chunks)`. -/
def mkWindows (totalChunks B : Nat) : List (Nat × Nat) :=
  (List.range ((totalChunks + B - 1) / B)).map
    (fun j => (j * B, min (j * B + B) totalChunks))

/-- The chunk sequence fed to the worker pool by `main`
(`parallel_insert.py` lines 104-149) on an input of records `input`, chunk
size `C`, row ceiling `T` and super-batch size `B`, assuming every insert
succeeds.  `total_chunks = (T + C - 1) // C` as at line 106. -/
def mainFeed (input : List α) (C T B : Nat) : List (List α) :=
  feedLoop (chunksOf C input) T (mkWindows ((T + C - 1) / C) B) 0

/-- Observable outcome of `main` in `parallel_insert.py`: whether a store
connection was attempted, whether an error message was printed, the process
exit status, and whether the ingestion loop was reached. -/
structure IngestMainRun where
  connAttempted : Bool
  messaged : Bool
  exitCode : Nat
  reachedPipeline : Bool
deriving DecidableEq

/-- Control-flow skeleton of `main` (`parallel_insert.py` lines 70-102):
a missing input file logs and returns before any `MongoClient` is created
(lines 75-78); a failed ping logs and returns (lines 86-102); in every case
`main` returns normally, and the script never calls `sys.exit`, so the
interpreter exits with status 0. -/
def parallel_insert_main (fileExists pingOk : Bool) : IngestMainRun :=
  if fileExists = false then ⟨false, true, 0, false⟩
  else if pingOk = false then ⟨true, true, 0, false⟩
  else ⟨true, false, 0, true⟩

/-- The inner retry loop of `run_continuous_queries`
(`fault_tolerance_demo.py` lines 75-94), returning the list of backoff delays
slept: after every failed retry `k` (0-based) it sleeps
`RETRY_DELAY * (k + 1)`; a successful retry breaks out without sleeping. -/
def queryRetryGo (ok : Nat → Bool) : Nat → Nat → List Nat
  | _, 0 => []
  | k, left + 1 =>
    if ok k then [] else (RETRY_DELAY * (k + 1)) :: queryRetryGo ok (k + 1) left

/-- The backoff delays observed by the query-demo retry loop. -/
def queryRetrySleeps (ok : Nat → Bool) (maxRetries : Nat) : List Nat :=
  queryRetryGo ok 0 maxRetries

/-! Helper lemmas about the retry loops. -/

theorem processChunkGo_bounds (bulkOk : Nat → Bool) (reconnectOk : Bool) (records : List α)
    (oneOk : α → Bool) (M : Nat) : ∀ left k,
    (processChunkGo bulkOk reconnectOk records oneOk M k left).bulkAttempts ≤ left ∧
    (processChunkGo bulkOk reconnectOk records oneOk M k left).fallbackRuns ≤ 1 := by
  intro left
  induction left with
  | zero => intro k; simp [processChunkGo]
  | succ n ih =>
    intro k
    simp only [processChunkGo]
    by_cases h1 : bulkOk k
    · simp [h1]
    · by_cases h2 : k < M - 1
      · simp only [h1, h2, if_true, if_false, Bool.false_eq_true]
        exact ⟨Nat.succ_le_succ (ih (k + 1)).1, (ih (k + 1)).2⟩
      · simp [h1, h2]

theorem vbGo_bounds (attemptOk : Nat → Bool) (M : Nat) (source : Value → List Doc)
    (batch : List Value) : ∀ left k,
    (vbGo attemptOk M source batch k left).attempts ≤ left := by
  intro left
  induction left with
  | zero => intro k; simp [vbGo]
  | succ n ih =>
    intro k
    simp only [vbGo]
    by_cases h1 : attemptOk k
    · simp [h1]
    · by_cases h2 : k < M - 1
      · simp only [h1, h2, if_true, if_false, Bool.false_eq_true]
        exact Nat.succ_le_succ (ih (k + 1))
      · simp [h1, h2]

theorem processChunkGo_allFail (bulkOk : Nat → Bool) (reconnectOk : Bool) (records : List α)
    (oneOk : α → Bool) (M : Nat) (hfail : ∀ j, j < M → bulkOk j = false) : ∀ left k,
    k + left = M → 1 ≤ left →
    processChunkGo bulkOk reconnectOk records oneOk M k left =
      ⟨some (chunkFallback reconnectOk records oneOk), left, 1,
       List.replicate (left - 1) RETRY_DELAY⟩ := by
  intro left
  induction left with
  | zero => intro k _ h; omega
  | succ n ih =>
    intro k hk _
    have hb : bulkOk k = false := hfail k (by omega)
    cases n with
    | zero =>
      have hlt : ¬ k < M - 1 := by omega
      simp [processChunkGo, hb, hlt]
    | succ m =>
      have hlt : k < M - 1 := by omega
      have hr := ih (k + 1) (by omega) (by omega)
      have hb' : ¬ (bulkOk k = true) := by simp [hb]
      show (if bulkOk k = true then (⟨some records.length, 1, 0, []⟩ : ChunkRun)
          else if k < M - 1 then
            ⟨(processChunkGo bulkOk reconnectOk records oneOk M (k + 1) (m + 1)).result,
             (processChunkGo bulkOk reconnectOk records oneOk M (k + 1) (m + 1)).bulkAttempts + 1,
             (processChunkGo bulkOk reconnectOk records oneOk M (k + 1) (m + 1)).fallbackRuns,
             RETRY_DELAY :: (processChunkGo bulkOk reconnectOk records oneOk M (k + 1) (m + 1)).sleeps⟩
          else ⟨some (chunkFallback reconnectOk records oneOk), 1, 1, []⟩) = _
      rw [if_neg hb', if_pos hlt, hr]
      simp [List.replicate_succ]

theorem processChunkGo_sleeps (bulkOk : Nat → Bool) (reconnectOk : Bool) (records : List α)
    (oneOk : α → Bool) (M : Nat) : ∀ left k d,
    d ∈ (processChunkGo bulkOk reconnectOk records oneOk M k left).sleeps →
    d = RETRY_DELAY := by
  intro left
  induction left with
  | zero => intro k d h; simp [processChunkGo] at h
  | succ n ih =>
    intro k d h
    simp only [processChunkGo] at h
    by_cases h1 : bulkOk k
    · simp [h1] at h
    · by_cases h2 : k < M - 1
      · simp only [h1, h2, if_true, if_false, Bool.false_eq_true, List.mem_cons] at h
        rcases h with h | h
        · exact h
        · exact ih (k + 1) d h
      · simp [h1, h2] at h

theorem vbGo_sleeps (attemptOk : Nat → Bool) (M : Nat) (source : Value → List Doc)
    (batch : List Value) : ∀ left k d,
    d ∈ (vbGo attemptOk M source batch k left).sleeps → d = RETRY_DELAY := by
  intro left
  induction left with
  | zero => intro k d h; simp [vbGo] at h
  | succ n ih =>
    intro k d h
    simp only [vbGo] at h
    by_cases h1 : attemptOk k
    · simp [h1] at h
    · by_cases h2 : k < M - 1
      · simp only [h1, h2, if_true, if_false, Bool.false_eq_true, List.mem_cons] at h
        rcases h with h | h
        · exact h
        · exact ih (k + 1) d h
      · simp [h1, h2] at h

theorem queryRetryGo_getElem (ok : Nat → Bool) : ∀ left k i d,
    (queryRetryGo ok k left)[i]? = some d → d = RETRY_DELAY * (k + i + 1) := by
  intro left
  induction left with
  | zero => intro k i d h; simp [queryRetryGo] at h
  | succ n ih =>
    intro k i d h
    simp only [queryRetryGo] at h
    by_cases h1 : ok k
    · simp [h1] at h
    · simp only [h1, if_false, Bool.false_eq_true] at h
      cases i with
      | zero =>
        simp only [List.getElem?_cons_zero, Option.some.injEq] at h
        simpa using h.symm
      | succ j =>
        simp only [List.getElem?_cons_succ] at h
        have h2 := ih (k + 1) j d h
        have h3 : k + 1 + j + 1 = k + (j + 1) + 1 := by omega
        rw [← h3]
        exact h2

theorem mem_of_getElemOpt {α : Type u} {l : List α} {i : Nat} {a : α}
    (h : l[i]? = some a) : a ∈ l := by
  rw [List.getElem?_eq_some] at h
  obtain ⟨hlt, rfl⟩ := h
  exact List.getElem_mem hlt

/-- C2: for every operation wrapped by the retry logic with `MAX_RETRIES = M`,
the underlying operation (a bulk insert in `process_chunk`, the batch body in
`process_vessel_batch`) is invoked at most `M` times before any fallback runs,
the fallback path runs at most once, and the loop is bounded (never
unbounded retrying). -/
theorem retry_attempts_bounded (α : Type) (bulkOk : Nat → Bool) (reconnectOk : Bool)
    (records : List α) (oneOk : α → Bool) (attemptOk : Nat → Bool)
    (source : Value → List Doc) (batch : List Value) (M : Nat) :
    (process_chunk bulkOk reconnectOk records oneOk M).bulkAttempts ≤ M ∧
    (process_chunk bulkOk reconnectOk records oneOk M).fallbackRuns ≤ 1 ∧
    (process_vessel_batch attemptOk M source batch).attempts ≤ M := by
  refine ⟨?_, ?_, ?_⟩
  · exact (processChunkGo_bounds bulkOk reconnectOk records oneOk M M 0).1
  · exact (processChunkGo_bounds bulkOk reconnectOk records oneOk M M 0).2
  · exact vbGo_bounds attemptOk M source batch M 0

/-- C3: after `MAX_RETRIES` consecutive bulk-insert failures, `process_chunk`
runs the per-record fallback exactly once: it reconnects and inserts the
records one at a time, never aborting on an individual bad record, and returns
the count of individually successful records (`0` when the fallback itself
fails entirely); exactly `M` bulk attempts were made before it. -/
theorem fallback_after_exhaustion (α : Type) (bulkOk : Nat → Bool) (reconnectOk : Bool)
    (records : List α) (oneOk : α → Bool) (M : Nat)
    (hM : 1 ≤ M) (hfail : ∀ j, j < M → bulkOk j = false) :
    process_chunk bulkOk reconnectOk records oneOk M =
      ⟨some (if reconnectOk then records.countP (fun r => oneOk r) else 0), M, 1,
       List.replicate (M - 1) RETRY_DELAY⟩ := by
  have h := processChunkGo_allFail bulkOk reconnectOk records oneOk M hfail M 0 (by omega) hM
  rw [process_chunk, h]
  rfl

/-- C3 witness: with three always-failing bulk attempts, a successful
reconnect and records `[0, 1, 2, 3]` of which the even ones insert, the chunk
returns 2, after 3 bulk attempts, one fallback run and two sleeps. -/
theorem fallback_after_exhaustion_witness :
    process_chunk (fun _ => false) true [0, 1, 2, 3] (fun n => n % 2 == 0) 3 =
      ⟨some 2, 3, 1, [5, 5]⟩ := by
  have h := fallback_after_exhaustion Nat (fun _ => false) true [0, 1, 2, 3]
    (fun n => n % 2 == 0) 3 (by decide) (fun j _ => rfl)
  rw [h]
  decide

/-- C4 counterexample: in `process_chunk` the delay slept after failed
attempt 2 is the constant `RETRY_DELAY = 5`, not `RETRY_DELAY * 2 = 10` as
the linear-backoff claim states (the sleeps after two failed attempts are
`[5, 5]`). -/
theorem backoff_linear_counterexample :
    (process_chunk (fun k => decide (2 ≤ k)) true ([] : List Nat) (fun _ => true) 3).sleeps
        = [5, 5] ∧
    (process_chunk (fun k => decide (2 ≤ k)) true ([] : List Nat) (fun _ => true) 3).sleeps[1]?
        = some 5 ∧
    RETRY_DELAY * 2 = 10 ∧ (5 : Nat) ≠ 10 := by
  decide

/-- C4 amended: in the store-write retry loops (`process_chunk` and
`process_vessel_batch`) every backoff delay equals the constant
`RETRY_DELAY`; only the query-demo retry loop backs off linearly, its delay
after failed attempt `k` (1-based `k = i + 1`) being `RETRY_DELAY * (i + 1)`;
in all three loops any two consecutive observed delays are nondecreasing, so
the second observed backoff is at least as long as the first. -/
theorem backoff_shape_amended (α : Type) (bulkOk : Nat → Bool) (reconnectOk : Bool)
    (records : List α) (oneOk : α → Bool) (attemptOk : Nat → Bool)
    (source : Value → List Doc) (batch : List Value) (ok : Nat → Bool) (M : Nat) :
    (∀ d ∈ (process_chunk bulkOk reconnectOk records oneOk M).sleeps, d = RETRY_DELAY) ∧
    (∀ d ∈ (process_vessel_batch attemptOk M source batch).sleeps, d = RETRY_DELAY) ∧
    (∀ i d, (queryRetrySleeps ok M)[i]? = some d → d = RETRY_DELAY * (i + 1)) ∧
    (∀ i a b, (queryRetrySleeps ok M)[i]? = some a →
      (queryRetrySleeps ok M)[i + 1]? = some b → a ≤ b) ∧
    (∀ i a b, (process_chunk bulkOk reconnectOk records oneOk M).sleeps[i]? = some a →
      (process_chunk bulkOk reconnectOk records oneOk M).sleeps[i + 1]? = some b → a ≤ b) ∧
    (∀ i a b, (process_vessel_batch attemptOk M source batch).sleeps[i]? = some a →
      (process_vessel_batch attemptOk M source batch).sleeps[i + 1]? = some b → a ≤ b) := by
  have hq : ∀ i d, (queryRetrySleeps ok M)[i]? = some d → d = RETRY_DELAY * (i + 1) := by
    intro i d h
    have := queryRetryGo_getElem ok M 0 i d h
    simpa using this
  have hc : ∀ d ∈ (process_chunk bulkOk reconnectOk records oneOk M).sleeps,
      d = RETRY_DELAY :=
    fun d h => processChunkGo_sleeps bulkOk reconnectOk records oneOk M M 0 d h
  have hv : ∀ d ∈ (process_vessel_batch attemptOk M source batch).sleeps,
      d = RETRY_DELAY :=
    fun d h => vbGo_sleeps attemptOk M source batch M 0 d h
  refine ⟨hc, hv, hq, ?_, ?_, ?_⟩
  · intro i a b ha hb
    have h1 := hq i a ha
    have h2 := hq (i + 1) b hb
    subst h1; subst h2
    exact Nat.mul_le_mul_left RETRY_DELAY (by omega)
  · intro i a b ha hb
    have h1 := hc a (mem_of_getElemOpt ha)
    have h2 := hc b (mem_of_getElemOpt hb)
    omega
  · intro i a b ha hb
    have h1 := hv a (mem_of_getElemOpt ha)
    have h2 := hv b (mem_of_getElemOpt hb)
    omega

/-- C4 amended witness: on the run whose third bulk attempt succeeds, the
first observed write-path delay is `RETRY_DELAY = 5`; in the query demo with
all retries failing, the second delay is `RETRY_DELAY * 2 = 10`; and the two
consecutive query-demo delays `5` and `10` are nondecreasing. -/
theorem backoff_shape_amended_witness :
    (5 : Nat) = RETRY_DELAY ∧ (10 : Nat) = RETRY_DELAY * (1 + 1) ∧ (5 : Nat) ≤ 10 := by
  have h := backoff_shape_amended Nat (fun k => decide (2 ≤ k)) true [] (fun _ => true)
    (fun _ => false) (fun _ => []) [] (fun _ => false) 3
  exact ⟨h.1 5 (by decide), h.2.2.1 1 10 (by decide),
    h.2.2.2.1 0 5 10 (by decide) (by decide)⟩

/-- C7 counterexample: on a missing input file, `main` of
`parallel_insert.py` does abort before any store connection and prints a
message, but the process exit status is 0, not the non-zero outcome the claim
asserts. -/
theorem missing_input_exit_counterexample :
    (parallel_insert_main false true).connAttempted = false ∧
    (parallel_insert_main false true).messaged = true ∧
    ¬ (parallel_insert_main false true).exitCode ≠ 0 := by
  decide

/-- C7 amended: if the input file cannot be opened, the ingestion run aborts
immediately before any store connection is attempted and prints a clear
message, but it terminates with exit status 0 (the function merely returns;
`sys.exit` is never called). -/
theorem missing_input_aborts_before_connect (pingOk : Bool) :
    parallel_insert_main false pingOk = ⟨false, true, 0, false⟩ := by
  rfl

/-! Invariants of the per-batch counters. -/

theorem batchStep_inv (source : Value → List Doc) (r : BatchResult) (m : Value)
    (h1 : r.vesselsFiltered ≤ r.vesselsProcessed) (h2 : r.filteredDocs ≤ r.totalDocs) :
    (batchStep source r m).vesselsFiltered ≤ (batchStep source r m).vesselsProcessed ∧
    (batchStep source r m).filteredDocs ≤ (batchStep source r m).totalDocs := by
  have hle : (vesselFiltered (source m)).length ≤ (source m).length :=
    List.length_filterMap_le _ _
  obtain ⟨vp, vf, td, fd, w, ic⟩ := r
  by_cases hlen : (source m).length < 100
  · have e : batchStep source ⟨vp, vf, td, fd, w, ic⟩ m =
        ⟨vp + 1, vf, td + (source m).length, fd, w, ic⟩ := by
      simp [batchStep, hlen]
    rw [e]
    exact ⟨by simp at h1 h2 ⊢; omega, by simp at h1 h2 ⊢; omega⟩
  · by_cases hf : vesselFiltered (source m) = []
    · have e : batchStep source ⟨vp, vf, td, fd, w, ic⟩ m =
          ⟨vp + 1, vf, td + (source m).length, fd, w, ic⟩ := by
        simp [batchStep, hlen, hf]
      rw [e]
      exact ⟨by simp at h1 h2 ⊢; omega, by simp at h1 h2 ⊢; omega⟩
    · have e : batchStep source ⟨vp, vf, td, fd, w, ic⟩ m =
          ⟨vp + 1, vf + 1, td + (source m).length,
           fd + (vesselFiltered (source m)).length,
           w ++ (chunksOf INSERT_BATCH_SIZE (vesselFiltered (source m))).flatten,
           ic + (chunksOf INSERT_BATCH_SIZE (vesselFiltered (source m))).length⟩ := by
        simp [batchStep, hlen, hf]
      rw [e]
      exact ⟨by simp at h1 h2 ⊢; omega, by simp at h1 h2 ⊢; omega⟩

theorem foldl_batchStep_inv (source : Value → List Doc) : ∀ (batch : List Value) (r : BatchResult),
    r.vesselsFiltered ≤ r.vesselsProcessed → r.filteredDocs ≤ r.totalDocs →
    (batch.foldl (batchStep source) r).vesselsFiltered
      ≤ (batch.foldl (batchStep source) r).vesselsProcessed ∧
    (batch.foldl (batchStep source) r).filteredDocs
      ≤ (batch.foldl (batchStep source) r).totalDocs := by
  intro batch
  induction batch with
  | nil => intro r h1 h2; exact ⟨h1, h2⟩
  | cons m rest ih =>
    intro r h1 h2
    have hstep := batchStep_inv source r m h1 h2
    simpa [List.foldl_cons] using ih (batchStep source r m) hstep.1 hstep.2

theorem processBatchPure_inv (source : Value → List Doc) (batch : List Value) :
    (processBatchPure source batch).vesselsFiltered
      ≤ (processBatchPure source batch).vesselsProcessed ∧
    (processBatchPure source batch).filteredDocs
      ≤ (processBatchPure source batch).totalDocs :=
  foldl_batchStep_inv source batch ⟨0, 0, 0, 0, [], 0⟩ (Nat.le_refl 0) (Nat.le_refl 0)

theorem vbGo_result_cases (attemptOk : Nat → Bool) (M : Nat) (source : Value → List Doc)
    (batch : List Value) : ∀ left k,
    (vbGo attemptOk M source batch k left).result = none ∨
    (vbGo attemptOk M source batch k left).result = some (0, 0, 0, 0) ∨
    (vbGo attemptOk M source batch k left).result =
      some ((processBatchPure source batch).vesselsProcessed,
            (processBatchPure source batch).vesselsFiltered,
            (processBatchPure source batch).totalDocs,
            (processBatchPure source batch).filteredDocs) := by
  intro left
  induction left with
  | zero => intro k; left; rfl
  | succ n ih =>
    intro k
    by_cases h1 : attemptOk k
    · right; right; simp [vbGo, h1]
    · by_cases h2 : k < M - 1
      · have : (vbGo attemptOk M source batch k (n + 1)).result =
            (vbGo attemptOk M source batch (k + 1) n).result := by
          simp [vbGo, h1, h2]
        rw [this]
        exact ih (k + 1)
      · right; left; simp [vbGo, h1, h2]

/-- C8: every counter tuple returned by `process_vessel_batch` satisfies
`vessels_filtered ≤ vessels_processed` and `filtered_docs ≤ total_docs`
(all four counters are natural numbers, hence non-negative; the
all-retries-failed path returns all zeros and satisfies both bounds). -/
theorem counters_invariant (attemptOk : Nat → Bool) (M : Nat) (source : Value → List Doc)
    (batch : List Value) (vp vf td fd : Nat)
    (h : (process_vessel_batch attemptOk M source batch).result = some (vp, vf, td, fd)) :
    vf ≤ vp ∧ fd ≤ td := by
  have hc := vbGo_result_cases attemptOk M source batch M 0
  rw [process_vessel_batch] at h
  rcases hc with hc | hc | hc
  · rw [hc] at h; cases h
  · rw [hc] at h
    simp only [Option.some.injEq, Prod.mk.injEq] at h
    omega
  · rw [hc] at h
    simp only [Option.some.injEq, Prod.mk.injEq] at h
    obtain ⟨h1, h2, h3, h4⟩ := h
    have hinv := processBatchPure_inv source batch
    omega

/-- A vessel document passing every required-field check, used as a concrete
test input. -/
def gdocEx : Doc :=
  [("MMSI", Value.vNum 1), ("Latitude", Value.vNum 2), ("Longitude", Value.vNum 3),
   ("Navigational status", Value.vStr "x")]

/-- A vessel document missing `Latitude`, failing the required-field check. -/
def bdocEx : Doc :=
  [("MMSI", Value.vNum 1), ("Longitude", Value.vNum 3),
   ("Navigational status", Value.vStr "x")]

/-- C8 witness: a one-vessel batch whose vessel has 100 valid documents
returns counters `(1, 1, 100, 100)`, and the invariant instantiates to
`1 ≤ 1 ∧ 100 ≤ 100`. -/
theorem counters_invariant_witness : (1 : Nat) ≤ 1 ∧ (100 : Nat) ≤ 100 :=
  counters_invariant (fun _ => true) 3 (fun _ => List.replicate 100 gdocEx)
    [Value.vNum 1] 1 1 100 100 (by decide)

/-! Helper lemmas about document field access. -/

theorem lookupF_setF_ne (d : Doc) (f g : String) (v : Value) (h : f ≠ g) :
    lookupF (setF d g v) f = lookupF d f := by
  induction d with
  | nil => rfl
  | cons p rest ih =>
    obtain ⟨k, w⟩ := p
    show lookupF ((if k = g then (g, v) else (k, w)) :: setF rest g v) f
        = lookupF ((k, w) :: rest) f
    by_cases hk : k = g
    · rw [if_pos hk]
      show (if g = f then some v else lookupF (setF rest g v) f)
          = (if k = f then some w else lookupF rest f)
      rw [if_neg (fun hh => h hh.symm), if_neg (fun hh : k = f => h (hh ▸ hk))]
      exact ih
    · rw [if_neg hk]
      show (if k = f then some w else lookupF (setF rest g v) f)
          = (if k = f then some w else lookupF rest f)
      by_cases hkf : k = f
      · rw [if_pos hkf, if_pos hkf]
      · rw [if_neg hkf, if_neg hkf]
        exact ih

theorem lookupF_setF_self (d : Doc) (g : String) (v v0 : Value)
    (h : lookupF d g = some v0) : lookupF (setF d g v) g = some v := by
  induction d with
  | nil => cases h
  | cons p rest ih =>
    obtain ⟨k, w⟩ := p
    show lookupF ((if k = g then (g, v) else (k, w)) :: setF rest g v) g = some v
    by_cases hk : k = g
    · rw [if_pos hk]
      show (if g = g then some v else lookupF (setF rest g v) g) = some v
      rw [if_pos rfl]
    · rw [if_neg hk]
      show (if k = g then some w else lookupF (setF rest g v) g) = some v
      rw [if_neg hk]
      have h' : lookupF rest g = some v0 := by
        have e : lookupF ((k, w) :: rest) g
            = (if k = g then some w else lookupF rest g) := rfl
        rw [e, if_neg hk] at h
        exact h
      exact ih h'

theorem lookupF_coerceField_ne (d : Doc) (f g : String) (h : f ≠ g) :
    lookupF (coerceField d g) f = lookupF d f := by
  unfold coerceField
  split
  · rfl
  · rename_i v heq
    by_cases hv : v = Value.vNull
    · rw [if_pos hv]
    · rw [if_neg hv]
      exact lookupF_setF_ne d f g _ h

theorem lookupF_coerceField_self (d : Doc) (g : String) (v : Value)
    (h : lookupF d g = some v) (hv : v ≠ Value.vNull) :
    lookupF (coerceField d g) g = some (coerceValue v) := by
  unfold coerceField
  split
  · rename_i heq
    rw [heq] at h
    cases h
  · rename_i v' heq
    rw [heq] at h
    injection h with h'
    subst h'
    rw [if_neg hv]
    exact lookupF_setF_self d g _ _ heq

theorem lookupF_coerceNumerics_ne (d : Doc) (f : String) (h : f ∉ NUMERIC_FIELDS) :
    lookupF (coerceNumerics d) f = lookupF d f := by
  simp only [NUMERIC_FIELDS, List.mem_cons, List.not_mem_nil, or_false, not_or] at h
  obtain ⟨h1, h2, h3, h4⟩ := h
  show lookupF (coerceField (coerceField (coerceField (coerceField d "ROT") "SOG") "COG")
      "Heading") f = lookupF d f
  rw [lookupF_coerceField_ne _ _ _ h4, lookupF_coerceField_ne _ _ _ h3,
    lookupF_coerceField_ne _ _ _ h2, lookupF_coerceField_ne _ _ _ h1]

theorem lookupF_removeId_id (d : Doc) : lookupF (removeId d) "_id" = none := by
  induction d with
  | nil => rfl
  | cons p rest ih =>
    obtain ⟨k, w⟩ := p
    by_cases hk : k = "_id"
    · have e : removeId ((k, w) :: rest) = removeId rest := by
        simp [removeId, List.filter_cons, hk]
      rw [e]
      exact ih
    · have e : removeId ((k, w) :: rest) = (k, w) :: removeId rest := by
        simp [removeId, List.filter_cons, hk]
      rw [e]
      show (if k = "_id" then some w else lookupF (removeId rest) "_id") = none
      rw [if_neg hk]
      exact ih

theorem lookupF_removeId_ne (d : Doc) (f : String) (h : f ≠ "_id") :
    lookupF (removeId d) f = lookupF d f := by
  induction d with
  | nil => rfl
  | cons p rest ih =>
    obtain ⟨k, w⟩ := p
    by_cases hk : k = "_id"
    · have e : removeId ((k, w) :: rest) = removeId rest := by
        simp [removeId, List.filter_cons, hk]
      rw [e]
      have hkf : ¬ k = f := fun hh => h (hh ▸ hk)
      show lookupF (removeId rest) f = (if k = f then some w else lookupF rest f)
      rw [if_neg hkf]
      exact ih
    · have e : removeId ((k, w) :: rest) = (k, w) :: removeId rest := by
        simp [removeId, List.filter_cons, hk]
      rw [e]
      show (if k = f then some w else lookupF (removeId rest) f)
          = (if k = f then some w else lookupF rest f)
      by_cases hkf : k = f
      · rw [if_pos hkf, if_pos hkf]
      · rw [if_neg hkf, if_neg hkf]
        exact ih

/-! Helper lemmas about chunking. -/

theorem chunksOfAux_flatten (C : Nat) (hC : 1 ≤ C) : ∀ (fuel : Nat) (l : List α),
    l.length ≤ fuel → (chunksOfAux C fuel l).flatten = l := by
  intro fuel
  induction fuel with
  | zero =>
    intro l h
    cases l with
    | nil => rfl
    | cons x xs => simp at h
  | succ n ih =>
    intro l h
    cases l with
    | nil => rfl
    | cons x xs =>
      show ((x :: xs).take C :: chunksOfAux C n ((x :: xs).drop C)).flatten = x :: xs
      rw [List.flatten_cons,
        ih ((x :: xs).drop C) (by rw [List.length_drop]; simp only [List.length_cons] at h ⊢; omega)]
      exact List.take_append_drop C (x :: xs)

theorem chunksOf_flatten (C : Nat) (hC : 1 ≤ C) (l : List α) :
    (chunksOf C l).flatten = l :=
  chunksOfAux_flatten C hC l.length l (Nat.le_refl _)

theorem chunksOfAux_length_le (C : Nat) : ∀ (fuel : Nat) (l : List α) (ch : List α),
    ch ∈ chunksOfAux C fuel l → ch.length ≤ C := by
  intro fuel
  induction fuel with
  | zero => intro l ch h; simp [chunksOfAux] at h
  | succ n ih =>
    intro l ch h
    cases l with
    | nil => simp [chunksOfAux] at h
    | cons x xs =>
      have e : chunksOfAux C (n + 1) (x :: xs)
          = (x :: xs).take C :: chunksOfAux C n ((x :: xs).drop C) := rfl
      rw [e] at h
      rcases List.mem_cons.mp h with h | h
      · subst h
        exact List.length_take_le C (x :: xs)
      · exact ih _ ch h

theorem chunksOf_length_le (C : Nat) (l : List α) (ch : List α)
    (h : ch ∈ chunksOf C l) : ch.length ≤ C :=
  chunksOfAux_length_le C l.length l ch h

theorem chunksOfAux_full (C : Nat) : ∀ (fuel : Nat) (l : List α) (i : Nat) (ch : List α),
    (chunksOfAux C fuel l)[i]? = some ch → i + 1 < (chunksOfAux C fuel l).length →
    ch.length = C := by
  intro fuel
  induction fuel with
  | zero => intro l i ch h _; simp [chunksOfAux] at h
  | succ n ih =>
    intro l i ch h hlt
    cases l with
    | nil => simp [chunksOfAux] at h
    | cons x xs =>
      have e : chunksOfAux C (n + 1) (x :: xs)
          = (x :: xs).take C :: chunksOfAux C n ((x :: xs).drop C) := rfl
      rw [e] at h hlt
      cases i with
      | zero =>
        simp only [List.getElem?_cons_zero, Option.some.injEq] at h
        subst h
        have hne : chunksOfAux C n ((x :: xs).drop C) ≠ [] := by
          intro hnil
          rw [hnil] at hlt
          simp at hlt
        have hdne : (x :: xs).drop C ≠ [] := by
          intro hdnil
          apply hne
          rw [hdnil]
          cases n <;> rfl
        have hlen : C < (x :: xs).length := by
          by_contra hcon
          push_neg at hcon
          exact hdne (List.drop_eq_nil_of_le hcon)
        rw [List.length_take]
        omega
      | succ j =>
        simp only [List.getElem?_cons_succ] at h
        simp only [List.length_cons] at hlt
        exact ih _ j ch h (by omega)

theorem chunksOf_full (C : Nat) (l : List α) (i : Nat) (ch : List α)
    (h : (chunksOf C l)[i]? = some ch) (hlt : i + 1 < (chunksOf C l).length) :
    ch.length = C :=
  chunksOfAux_full C l.length l i ch h hlt

/-! Helper lemmas about the filtering pipeline. -/

theorem vesselFiltered_eq_map_filter (docs : List Doc) :
    vesselFiltered docs =
      (docs.filter (fun d => hasRequired (removeId d))).map
        (fun d => coerceNumerics (removeId d)) := by
  induction docs with
  | nil => rfl
  | cons d rest ih =>
    simp only [vesselFiltered, List.filterMap_cons] at ih ⊢
    by_cases h : hasRequired (removeId d) = true
    · simp [processDoc, h, List.filter_cons, ih]
    · simp [processDoc, h, List.filter_cons, ih]

theorem vesselWrites_written_eq (docs : List Doc) :
    (vesselWrites docs).written = processVessel docs := by
  by_cases h : docs.length < 100
  · simp [vesselWrites, processVessel, h]
  · by_cases hf : vesselFiltered docs = []
    · simp [vesselWrites, processVessel, h, hf]
    · simp [vesselWrites, processVessel, h, hf,
        chunksOf_flatten INSERT_BATCH_SIZE (by decide)]

theorem lookupF_coerceNumerics_self (d : Doc) (f : String) (v : Value)
    (hf : f ∈ NUMERIC_FIELDS) (hv : lookupF d f = some v) (hnn : v ≠ Value.vNull) :
    lookupF (coerceNumerics d) f = some (coerceValue v) := by
  have e : coerceNumerics d =
      coerceField (coerceField (coerceField (coerceField d "ROT") "SOG") "COG") "Heading" := rfl
  simp only [NUMERIC_FIELDS, List.mem_cons, List.not_mem_nil, or_false] at hf
  rcases hf with rfl | rfl | rfl | rfl
  · rw [e, lookupF_coerceField_ne _ _ _ (by decide), lookupF_coerceField_ne _ _ _ (by decide),
      lookupF_coerceField_ne _ _ _ (by decide)]
    exact lookupF_coerceField_self d _ v hv hnn
  · rw [e, lookupF_coerceField_ne _ _ _ (by decide), lookupF_coerceField_ne _ _ _ (by decide)]
    apply lookupF_coerceField_self
    · rw [lookupF_coerceField_ne _ _ _ (by decide)]
      exact hv
    · exact hnn
  · rw [e, lookupF_coerceField_ne _ _ _ (by decide)]
    apply lookupF_coerceField_self
    · rw [lookupF_coerceField_ne _ _ _ (by decide), lookupF_coerceField_ne _ _ _ (by decide)]
      exact hv
    · exact hnn
  · rw [e]
    apply lookupF_coerceField_self
    · rw [lookupF_coerceField_ne _ _ _ (by decide), lookupF_coerceField_ne _ _ _ (by decide),
        lookupF_coerceField_ne _ _ _ (by decide)]
      exact hv
    · exact hnn

/-- C6 counterexample: the string `nan` is parseable by Python `float`
(yielding the float NaN), yet the coercion rewrites the field to null rather
than to the parsed float value, so the claimed parseable-to-float rule fails
on `ROT = its float parse of nan`. -/
theorem numeric_coercion_nan_counterexample :
    pyFloatOfValue (Value.vStr "nan") = some PFloat.nan ∧
    lookupF (coerceNumerics [("ROT", Value.vStr "nan")]) "ROT" = some Value.vNull ∧
    Value.vNull ≠ Value.vNaN := by
  decide

/-- C6 amended: for every retained record, a numeric field (`ROT`, `SOG`,
`COG`, `Heading`) that is present and non-null is rewritten to
`coerceValue v`: its float value when it parses to a finite float (e.g.
`12.5`), and null when it is unparseable (e.g. `abc`) or parses to NaN;
in every case the record itself is kept or dropped solely by the
required-field check, never for an unparseable numeric field. -/
theorem numeric_coercion_amended (doc : Doc) (f : String) (v : Value)
    (hf : f ∈ NUMERIC_FIELDS) (hv : lookupF doc f = some v) (hnn : v ≠ Value.vNull) :
    lookupF (coerceNumerics doc) f = some (coerceValue v) ∧
    (∀ q, pyFloatOfValue v = some (PFloat.fin q) → coerceValue v = Value.vNum q) ∧
    (pyFloatOfValue v = none → coerceValue v = Value.vNull) ∧
    (pyFloatOfValue v = some PFloat.nan → coerceValue v = Value.vNull) ∧
    (∀ d : Doc, (processDoc d).isSome = hasRequired (removeId d)) := by
  refine ⟨lookupF_coerceNumerics_self doc f v hf hv hnn, ?_, ?_, ?_, ?_⟩
  · intro q hq
    simp [coerceValue, hq]
  · intro hq
    simp [coerceValue, hq]
  · intro hq
    simp [coerceValue, hq]
  · intro d
    cases h : hasRequired (removeId d) <;> simp [processDoc, h]

/-- A vessel document with the required fields present, a parseable numeric
field `ROT` and an unparseable numeric field `SOG`. -/
def ndocEx : Doc :=
  [("MMSI", Value.vNum 1), ("Latitude", Value.vNum 2), ("Longitude", Value.vNum 3),
   ("Navigational status", Value.vStr "x"), ("ROT", Value.vStr "12.5"),
   ("SOG", Value.vStr "abc")]

/-- C6 amended witness: on the concrete record, `ROT = the string 12.5` is
rewritten to the float `12.5` and the unparseable `SOG = abc` to null. -/
theorem numeric_coercion_amended_witness :
    lookupF (coerceNumerics ndocEx) "ROT" = some (Value.vNum (Rat.divInt 25 2)) ∧
    lookupF (coerceNumerics ndocEx) "SOG" = some Value.vNull := by
  have h1 := numeric_coercion_amended ndocEx "ROT" (Value.vStr "12.5")
    (by decide) (by decide) (by decide)
  have h2 := numeric_coercion_amended ndocEx "SOG" (Value.vStr "abc")
    (by decide) (by decide) (by decide)
  refine ⟨?_, ?_⟩
  · rw [h1.1]
    decide
  · rw [h2.1]
    decide

/-- C9: every document written to the filtered collection has `_id` removed,
and it is the image of a source document of the group in which, apart from
the removal of `_id` and the coercion of the four numeric fields, every other
field is unchanged. -/
theorem written_doc_frame (docs : List Doc) (w : Doc) (hw : w ∈ processVessel docs) :
    lookupF w "_id" = none ∧
    ∃ d ∈ docs, w = coerceNumerics (removeId d) ∧
      ∀ f : String, f ≠ "_id" → f ∉ NUMERIC_FIELDS → lookupF w f = lookupF d f := by
  have hw' : w ∈ vesselFiltered docs := by
    unfold processVessel at hw
    by_cases h : docs.length < 100
    · rw [if_pos h] at hw
      cases hw
    · rwa [if_neg h] at hw
  obtain ⟨d, hd, hpd⟩ := List.mem_filterMap.mp hw'
  have hw2 : w = coerceNumerics (removeId d) := by
    by_cases h : hasRequired (removeId d) = true
    · simp only [processDoc, h, if_true] at hpd
      exact (Option.some.inj hpd).symm
    · simp only [processDoc, h, if_false, Bool.false_eq_true] at hpd
      cases hpd
  subst hw2
  refine ⟨?_, d, hd, rfl, ?_⟩
  · rw [lookupF_coerceNumerics_ne _ _ (by decide)]
    exact lookupF_removeId_id d
  · intro f hf1 hf2
    rw [lookupF_coerceNumerics_ne _ _ hf2]
    exact lookupF_removeId_ne d f hf1

/-- A vessel document carrying an `_id`, the required fields and a parseable
numeric field. -/
def wdocEx : Doc :=
  [("_id", Value.vStr "oid1"), ("MMSI", Value.vNum 1), ("Latitude", Value.vNum 2),
   ("Longitude", Value.vNum 3), ("Navigational status", Value.vStr "x"),
   ("ROT", Value.vStr "12.5")]

/-- C9 witness: the written image of the concrete document with an `_id` has
no `_id` field and agrees with its source document outside `_id` and the
numeric fields. -/
theorem written_doc_frame_witness :
    lookupF (coerceNumerics (removeId wdocEx)) "_id" = none ∧
    ∃ d ∈ List.replicate 100 wdocEx,
      coerceNumerics (removeId wdocEx) = coerceNumerics (removeId d) ∧
      ∀ f : String, f ≠ "_id" → f ∉ NUMERIC_FIELDS →
        lookupF (coerceNumerics (removeId wdocEx)) f = lookupF d f :=
  written_doc_frame (List.replicate 100 wdocEx) (coerceNumerics (removeId wdocEx))
    (by decide)

theorem batchStep_vf (source : Value → List Doc) (r : BatchResult) (m : Value) :
    (batchStep source r m).vesselsFiltered =
      r.vesselsFiltered + (if processVessel (source m) = [] then 0 else 1) := by
  obtain ⟨vp, vf, td, fd, w, ic⟩ := r
  by_cases hlen : (source m).length < 100
  · have hpv : processVessel (source m) = [] := by simp [processVessel, hlen]
    simp [batchStep, hlen, hpv]
  · by_cases hf : vesselFiltered (source m) = []
    · have hpv : processVessel (source m) = [] := by simp [processVessel, hlen, hf]
      simp [batchStep, hlen, hf, hpv]
    · have hpv : processVessel (source m) = vesselFiltered (source m) := by
        simp [processVessel, hlen]
      simp [batchStep, hlen, hf, hpv]

theorem batchStep_ic (source : Value → List Doc) (r : BatchResult) (m : Value) :
    (batchStep source r m).insertCalls =
      r.insertCalls + (vesselWrites (source m)).insertCalls := by
  obtain ⟨vp, vf, td, fd, w, ic⟩ := r
  by_cases hlen : (source m).length < 100
  · simp [batchStep, vesselWrites, hlen]
  · by_cases hf : vesselFiltered (source m) = []
    · simp [batchStep, vesselWrites, hlen, hf]
    · simp [batchStep, vesselWrites, hlen, hf]

theorem foldl_vf_count (source : Value → List Doc) : ∀ (batch : List Value) (r : BatchResult),
    (batch.foldl (batchStep source) r).vesselsFiltered =
      r.vesselsFiltered + batch.countP (fun m => decide (processVessel (source m) ≠ [])) := by
  intro batch
  induction batch with
  | nil => intro r; simp
  | cons m rest ih =>
    intro r
    rw [List.foldl_cons, ih, batchStep_vf, List.countP_cons]
    by_cases h : processVessel (source m) = []
    · simp [h]
    · simp [h]
      omega

theorem foldl_ic_sum (source : Value → List Doc) : ∀ (batch : List Value) (r : BatchResult),
    (batch.foldl (batchStep source) r).insertCalls =
      r.insertCalls + (batch.map (fun m => (vesselWrites (source m)).insertCalls)).sum := by
  intro batch
  induction batch with
  | nil => intro r; simp
  | cons m rest ih =>
    intro r
    rw [List.foldl_cons, ih, batchStep_ic, List.map_cons, List.sum_cons]
    omega

/-- C10: `vessels_filtered` counts exactly the vessels of the batch for which
at least one record is actually written, and the number of `insert_many`
calls is the sum of the per-vessel insert calls; in particular a group with
at least 100 records in which no record passes the required-field checks
contributes no insert call, no written document, and is not counted. -/
theorem retained_vessels_counted (source : Value → List Doc) (batch : List Value) :
    (processBatchPure source batch).vesselsFiltered =
      batch.countP (fun m => decide (processVessel (source m) ≠ [])) ∧
    (processBatchPure source batch).insertCalls =
      (batch.map (fun m => (vesselWrites (source m)).insertCalls)).sum ∧
    ∀ docs : List Doc, 100 ≤ docs.length → vesselFiltered docs = [] →
      vesselWrites docs = ⟨[], 0⟩ ∧ processVessel docs = [] := by
  refine ⟨?_, ?_, ?_⟩
  · have h := foldl_vf_count source batch ⟨0, 0, 0, 0, [], 0⟩
    simpa [processBatchPure] using h
  · have h := foldl_ic_sum source batch ⟨0, 0, 0, 0, [], 0⟩
    simpa [processBatchPure] using h
  · intro docs h1 h2
    have hn : ¬ docs.length < 100 := by omega
    exact ⟨by simp [vesselWrites, hn, h2], by simp [processVessel, hn, h2]⟩

/-- C10 witness: a one-vessel batch whose vessel has 100 records all missing
`Latitude` is not counted as retained, makes no insert call and writes no
document. -/
theorem retained_vessels_counted_witness :
    (processBatchPure (fun _ => List.replicate 100 bdocEx) [Value.vNum 1]).vesselsFiltered = 0 ∧
    vesselWrites (List.replicate 100 bdocEx) = ⟨[], 0⟩ ∧
    processVessel (List.replicate 100 bdocEx) = [] := by
  have h := retained_vessels_counted (fun _ => List.replicate 100 bdocEx) [Value.vNum 1]
  have h3 := h.2.2 (List.replicate 100 bdocEx) (by decide) (by decide)
  refine ⟨?_, h3.1, h3.2⟩
  rw [h.1]
  decide

/-- C1: for every vessel group, a group with fewer than 100 records writes
nothing to the target collection; a group with at least 100 records writes
exactly the records passing all required-field checks (in order, transformed
by `_id` removal and numeric coercion), so the written count equals the
number of passing records. -/
theorem filter_rule_written_exact (docs : List Doc) :
    (docs.length < 100 → (vesselWrites docs).written = [] ∧ processVessel docs = []) ∧
    (100 ≤ docs.length →
      (vesselWrites docs).written =
        (docs.filter (fun d => hasRequired (removeId d))).map
          (fun d => coerceNumerics (removeId d)) ∧
      (vesselWrites docs).written.length =
        docs.countP (fun d => hasRequired (removeId d))) := by
  constructor
  · intro h
    constructor
    · rw [vesselWrites_written_eq]
      simp [processVessel, h]
    · simp [processVessel, h]
  · intro h
    have hn : ¬ docs.length < 100 := by omega
    have e : (vesselWrites docs).written = vesselFiltered docs := by
      rw [vesselWrites_written_eq]
      simp [processVessel, hn]
    constructor
    · rw [e, vesselFiltered_eq_map_filter]
    · rw [e, vesselFiltered_eq_map_filter, List.length_map, ← List.countP_eq_length_filter]

set_option maxRecDepth 4000 in
/-- C1 witness: a 150-record group with 130 valid records and 20 records
missing `Latitude` writes exactly 130 records. -/
theorem filter_rule_written_exact_witness :
    (vesselWrites (List.replicate 130 gdocEx ++ List.replicate 20 bdocEx)).written.length
      = 130 := by
  have h := (filter_rule_written_exact
    (List.replicate 130 gdocEx ++ List.replicate 20 bdocEx)).2 (by decide)
  rw [h.2]
  decide

/-! Helper lemmas for the super-batch chunk feed of `parallel_insert.py`. -/

theorem windowEmit_length_le (T tot C : Nat) (chs : List (List α))
    (hle : ∀ ch ∈ chs, ch.length ≤ C) :
    ∀ ch ∈ windowEmit T tot chs, ch.length ≤ C := by
  intro ch hch
  obtain ⟨ch', hch', hfc⟩ := List.mem_map.mp hch
  subst hfc
  by_cases hcond : T < tot + ch'.length
  · rw [if_pos hcond, List.length_take]
    exact le_trans (min_le_right _ _) (hle ch' hch')
  · rw [if_neg hcond]
    exact hle ch' hch'

theorem windowEmit_flatten_prefix (T tot : Nat) : ∀ (chs : List (List α)),
    (∀ i, i + 1 < chs.length → tot + ((chs[i]?).getD []).length ≤ T) →
    ∃ t, (windowEmit T tot chs).flatten ++ t = chs.flatten := by
  intro chs
  induction chs with
  | nil => intro _; exact ⟨[], rfl⟩
  | cons ch rest ih =>
    intro htr
    cases rest with
    | nil =>
      by_cases hcond : T < tot + ch.length
      · refine ⟨ch.drop (T - tot), ?_⟩
        simp [windowEmit, hcond]
      · refine ⟨[], ?_⟩
        simp [windowEmit, hcond]
    | cons r rs =>
      have h0 : tot + ch.length ≤ T := by
        have := htr 0 (by simp)
        simpa using this
      have hcond : ¬ T < tot + ch.length := by omega
      have htr' : ∀ i, i + 1 < (r :: rs).length →
          tot + (((r :: rs)[i]?).getD []).length ≤ T := by
        intro i hi
        have := htr (i + 1) (by simpa using Nat.succ_lt_succ hi)
        simpa using this
      obtain ⟨t, ht⟩ := ih htr'
      refine ⟨t, ?_⟩
      show ((if T < tot + ch.length then ch.take (T - tot) else ch)
          :: windowEmit T tot (r :: rs)).flatten ++ t = (ch :: r :: rs).flatten
      rw [if_neg hcond, List.flatten_cons, List.flatten_cons, List.append_assoc, ht]

theorem windowEmit_eq_self (T tot : Nat) : ∀ (chs : List (List α)),
    (∀ ch ∈ chs, ¬ T < tot + ch.length) → windowEmit T tot chs = chs := by
  intro chs
  induction chs with
  | nil => intro _; rfl
  | cons ch rest ih =>
    intro h
    show (if T < tot + ch.length then ch.take (T - tot) else ch) :: windowEmit T tot rest
        = ch :: rest
    rw [if_neg (h ch (List.mem_cons_self ch rest)), ih (fun c hc => h c (List.mem_cons_of_mem ch hc))]

theorem windowEmit_sum_ge (T tot : Nat) : ∀ (chs : List (List α)) (ch : List α),
    ch ∈ chs → T < tot + ch.length →
    T ≤ tot + ((windowEmit T tot chs).map List.length).sum := by
  intro chs
  induction chs with
  | nil => intro ch h; cases h
  | cons c rest ih =>
    intro ch hmem htr
    have e : windowEmit T tot (c :: rest)
        = (if T < tot + c.length then c.take (T - tot) else c) :: windowEmit T tot rest := rfl
    rw [e, List.map_cons, List.sum_cons]
    rcases List.mem_cons.mp hmem with rfl | hmem'
    · rw [if_pos htr, List.length_take]
      have : min (T - tot) ch.length = T - tot := by omega
      omega
    · have := ih ch hmem' htr
      omega

theorem flatten_take_length (C : Nat) : ∀ (L : List (List α)) (s : Nat),
    (∀ j ch, L[j]? = some ch → j + 1 ≤ s → ch.length = C) → s ≤ L.length →
    ((L.take s).flatten).length = s * C := by
  intro L
  induction L with
  | nil =>
    intro s _ hs
    have : s = 0 := by simpa using hs
    subst this
    simp
  | cons c rest ih =>
    intro s h hs
    cases s with
    | zero => simp
    | succ k =>
      have hc : c.length = C := h 0 c (by simp) (by omega)
      have hrest : ∀ j ch, rest[j]? = some ch → j + 1 ≤ k → ch.length = C := by
        intro j ch hj hjk
        exact h (j + 1) ch (by simpa using hj) (by omega)
      have e : ((c :: rest).take (k + 1)).flatten = c ++ (rest.take k).flatten := by
        rfl
      rw [e, List.length_append, hc, ih k hrest (by simpa using hs)]
      ring

theorem read_window_no_trunc (L : List (List α)) (C T total : Nat)
    (hfull : ∀ i ch, L[i]? = some ch → i + 1 < L.length → ch.length = C)
    (htotal : ∀ j, j < total → j * C < T)
    (s e tot : Nat) (he : e ≤ total) (htot : tot = ((L.take s).flatten).length) :
    ∀ i, i + 1 < ((L.drop s).take (e - s)).length →
      tot + ((((L.drop s).take (e - s))[i]?).getD []).length ≤ T := by
  intro i hi
  have hrl : ((L.drop s).take (e - s)).length ≤ e - s := List.length_take_le _ _
  have hrl2 : ((L.drop s).take (e - s)).length ≤ L.length - s := by
    rw [List.length_take, List.length_drop]
    exact min_le_right _ _
  have hsi : s + i + 1 < L.length := by omega
  have hread : ((L.drop s).take (e - s))[i]? = L[s + i]? := by
    rw [List.getElem?_take, if_pos (by omega), List.getElem?_drop]
  have hLsome : ∃ ch, L[s + i]? = some ch := by
    have : s + i < L.length := by omega
    exact ⟨L[s + i], List.getElem?_eq_getElem this⟩
  obtain ⟨ch, hch⟩ := hLsome
  have hchC : ch.length = C := hfull (s + i) ch hch hsi
  have htotv : tot = s * C := by
    rw [htot]
    exact flatten_take_length C L s
      (fun j cj hj hjs => hfull j cj hj (by omega)) (by omega)
  rw [hread, hch]
  simp only [Option.getD_some]
  rw [hchC, htotv]
  have hje : s + i + 1 < total := by omega
  have h1 : (s + i + 1) * C < T := htotal (s + i + 1) hje
  have h2 : (s + 1) * C ≤ (s + i + 1) * C := Nat.mul_le_mul_right C (by omega)
  have e1 : (s + 1) * C = s * C + C := by ring
  have e2 : (s + i + 1) * C = (s + i) * C + C := by ring
  omega

/-- Well-formed window lists: consecutive super-batch windows `(s, e)` with
`s ≤ e ≤ total`, each starting where the previous one ended. -/
def WsOk (total : Nat) : Nat → List (Nat × Nat) → Prop
  | _, [] => True
  | s, w :: ws => w.1 = s ∧ s ≤ w.2 ∧ w.2 ≤ total ∧ WsOk total w.2 ws

theorem feedLoop_flatten_prefix (L : List (List α)) (C T total : Nat)
    (hfull : ∀ i ch, L[i]? = some ch → i + 1 < L.length → ch.length = C)
    (htotal : ∀ j, j < total → j * C < T) :
    ∀ (ws : List (Nat × Nat)) (s tot : Nat), WsOk total s ws →
      tot = ((L.take s).flatten).length →
      ∃ t, (L.take s).flatten ++ ((feedLoop L T ws tot).flatten ++ t) = L.flatten := by
  intro ws
  induction ws with
  | nil =>
    intro s tot _ _
    refine ⟨(L.drop s).flatten, ?_⟩
    show (L.take s).flatten ++ ([].flatten ++ (L.drop s).flatten) = L.flatten
    rw [List.flatten_nil, List.nil_append, ← List.flatten_append, List.take_append_drop]
  | cons w ws ih =>
    obtain ⟨s', e⟩ := w
    intro s tot hws htot
    obtain ⟨hs', hse, het, hws2⟩ := hws
    cases hs'
    have htr := read_window_no_trunc L C T total hfull htotal s' e tot het htot
    have hread : (L.take s').flatten ++ ((L.drop s').take (e - s')).flatten
        = (L.take e).flatten := by
      rw [← List.flatten_append, ← List.take_add]
      congr 2
      omega
    have efl : feedLoop L T ((s', e) :: ws) tot =
        (if T ≤ tot + ((windowEmit T tot ((L.drop s').take (e - s'))).map List.length).sum
          then windowEmit T tot ((L.drop s').take (e - s'))
          else windowEmit T tot ((L.drop s').take (e - s')) ++
            feedLoop L T ws
              (tot + ((windowEmit T tot ((L.drop s').take (e - s'))).map List.length).sum)) := rfl
    rw [efl]
    by_cases hstop :
        T ≤ tot + ((windowEmit T tot ((L.drop s').take (e - s'))).map List.length).sum
    · rw [if_pos hstop]
      obtain ⟨t1, ht1⟩ := windowEmit_flatten_prefix T tot ((L.drop s').take (e - s')) htr
      refine ⟨t1 ++ ((L.drop e).flatten), ?_⟩
      have lhs1 : (windowEmit T tot ((L.drop s').take (e - s'))).flatten ++
          (t1 ++ (L.drop e).flatten)
          = ((L.drop s').take (e - s')).flatten ++ (L.drop e).flatten := by
        rw [← List.append_assoc, ht1]
      rw [lhs1, ← List.append_assoc, hread, ← List.flatten_append, List.take_append_drop]
    · rw [if_neg hstop]
      have hnt : ∀ ch ∈ (L.drop s').take (e - s'), ¬ T < tot + ch.length := by
        intro ch hch hcon
        exact hstop (windowEmit_sum_ge T tot ((L.drop s').take (e - s')) ch hch hcon)
      have heq : windowEmit T tot ((L.drop s').take (e - s')) = (L.drop s').take (e - s') :=
        windowEmit_eq_self T tot ((L.drop s').take (e - s')) hnt
      have hsum : ((windowEmit T tot ((L.drop s').take (e - s'))).map List.length).sum
          = (((L.drop s').take (e - s')).map List.length).sum := by rw [heq]
      have htot2 : tot + ((windowEmit T tot ((L.drop s').take (e - s'))).map List.length).sum
          = ((L.take e).flatten).length := by
        rw [hsum, htot, ← List.length_flatten, ← List.length_append, hread]
      obtain ⟨t, ht⟩ := ih e
        (tot + ((windowEmit T tot ((L.drop s').take (e - s'))).map List.length).sum)
        hws2 htot2
      rw [heq] at ht
      refine ⟨t, ?_⟩
      rw [List.flatten_append, heq, List.append_assoc,
        ← List.append_assoc ((L.take s').flatten), hread]
      exact ht

theorem wsOk_range (total B : Nat) (hB : 1 ≤ B) : ∀ (n k : Nat),
    k + n = (total + B - 1) / B →
    WsOk total (k * B) ((List.range' k n).map (fun j => (j * B, min (j * B + B) total))) := by
  intro n
  induction n with
  | zero => intro k _; trivial
  | succ m ih =>
    intro k hk
    rw [List.range'_succ, List.map_cons]
    have hkc : k < (total + B - 1) / B := by omega
    have hklt : k * B < total := by
      have h2 : (k + 1) * B ≤ total + B - 1 :=
        le_trans (Nat.mul_le_mul_right B (by omega)) (Nat.div_mul_le_self _ _)
      have e : (k + 1) * B = k * B + B := by ring
      omega
    refine ⟨rfl, ?_, min_le_right _ _, ?_⟩
    · exact le_min (Nat.le_add_right _ _) (le_of_lt hklt)
    · cases m with
      | zero => trivial
      | succ m2 =>
        have hk1 : (k + 1) * B < total := by
          have h2 : (k + 2) * B ≤ total + B - 1 :=
            le_trans (Nat.mul_le_mul_right B (by omega)) (Nat.div_mul_le_self _ _)
          have e1 : (k + 2) * B = (k + 1) * B + B := by ring
          omega
        have hmin : min (k * B + B) total = (k + 1) * B := by
          have e : k * B + B = (k + 1) * B := by ring
          rw [e]
          exact min_eq_left (le_of_lt hk1)
        rw [hmin]
        exact ih (k + 1) (by omega)

theorem mkWindows_ok (total B : Nat) (hB : 1 ≤ B) : WsOk total 0 (mkWindows total B) := by
  have h := wsOk_range total B hB ((total + B - 1) / B) 0 (by omega)
  rw [Nat.zero_mul] at h
  rw [mkWindows, List.range_eq_range']
  exact h

theorem feedLoop_length_le (L : List (List α)) (C T : Nat)
    (hle : ∀ ch ∈ L, ch.length ≤ C) : ∀ (ws : List (Nat × Nat)) (tot : Nat),
    ∀ ch ∈ feedLoop L T ws tot, ch.length ≤ C := by
  intro ws
  induction ws with
  | nil => intro tot ch h; cases h
  | cons w ws ih =>
    obtain ⟨s, e⟩ := w
    intro tot ch h
    have hemit : ∀ ch2 ∈ windowEmit T tot ((L.drop s).take (e - s)), ch2.length ≤ C :=
      windowEmit_length_le T tot C _
        (fun ch2 hch2 => hle ch2 (List.drop_subset s L (List.take_subset _ _ hch2)))
    have efl : feedLoop L T ((s, e) :: ws) tot =
        (if T ≤ tot + ((windowEmit T tot ((L.drop s).take (e - s))).map List.length).sum
          then windowEmit T tot ((L.drop s).take (e - s))
          else windowEmit T tot ((L.drop s).take (e - s)) ++
            feedLoop L T ws
              (tot + ((windowEmit T tot ((L.drop s).take (e - s))).map List.length).sum)) := rfl
    rw [efl] at h
    by_cases hstop :
        T ≤ tot + ((windowEmit T tot ((L.drop s).take (e - s))).map List.length).sum
    · rw [if_pos hstop] at h
      exact hemit ch h
    · rw [if_neg hstop] at h
      rcases List.mem_append.mp h with h | h
      · exact hemit ch h
      · exact ih _ ch h

theorem htotal_of_ceil (C T : Nat) : ∀ j, j < (T + C - 1) / C → j * C < T := by
  intro j hj
  have h2 : (j + 1) * C ≤ T + C - 1 :=
    le_trans (Nat.mul_le_mul_right C (by omega)) (Nat.div_mul_le_self _ _)
  have hC : 1 ≤ C := by
    by_contra hc
    have : C = 0 := by omega
    subst this
    simp at hj
  have e : (j + 1) * C = j * C + C := by ring
  omega

/-- C5 counterexample: with 20 input records, chunk size 5, row ceiling 12
and super-batch size 10, the feed emits 15 records: the cumulative emitted
count exceeds the ceiling `T = 12` and the concatenation is not the first
`min(R, T) = 12` records, because every chunk of the super-batch is compared
against the stale `total_inserted` value from the start of the super-batch. -/
theorem row_ceiling_counterexample :
    ((mainFeed (List.range 20) 5 12 10).map List.length).sum = 15 ∧
    ¬ ((mainFeed (List.range 20) 5 12 10).map List.length).sum ≤ 12 ∧
    (mainFeed (List.range 20) 5 12 10).flatten ≠ (List.range 20).take 12 := by
  decide


theorem vbGo_allFail (attemptOk : Nat → Bool) (M : Nat) (source : Value → List Doc)
    (batch : List Value) (hfail : ∀ j, j < M → attemptOk j = false) : ∀ left k,
    k + left = M → 1 ≤ left →
    vbGo attemptOk M source batch k left =
      ⟨some (0, 0, 0, 0), left, List.replicate (left - 1) RETRY_DELAY⟩ := by
  intro left
  induction left with
  | zero => intro k _ h; omega
  | succ n ih =>
    intro k hk _
    have hb : attemptOk k = false := hfail k (by omega)
    cases n with
    | zero =>
      have hlt : ¬ k < M - 1 := by omega
      simp [vbGo, hb, hlt]
    | succ m =>
      have hlt : k < M - 1 := by omega
      have hr := ih (k + 1) (by omega) (by omega)
      have hb' : ¬ (attemptOk k = true) := by simp [hb]
      show (if attemptOk k = true then
            (⟨some ((processBatchPure source batch).vesselsProcessed,
              (processBatchPure source batch).vesselsFiltered,
              (processBatchPure source batch).totalDocs,
              (processBatchPure source batch).filteredDocs), 1, []⟩ : VBRun)
          else if k < M - 1 then
            ⟨(vbGo attemptOk M source batch (k + 1) (m + 1)).result,
             (vbGo attemptOk M source batch (k + 1) (m + 1)).attempts + 1,
             RETRY_DELAY :: (vbGo attemptOk M source batch (k + 1) (m + 1)).sleeps⟩
          else ⟨some (0, 0, 0, 0), 1, []⟩) = _
      rw [if_neg hb', if_pos hlt, hr]
      simp [List.replicate_succ]

/-- C3 counterexample: on the `full_filter.py` write path, after
`MAX_RETRIES` consecutive failures `process_vessel_batch` performs no
per-record fallback at all: it returns the all-zero counter tuple, even
though the very same batch processes to `(1, 1, 100, 100)` on a successful
attempt, so no count of individually salvaged records is ever produced —
refuting the claim that every write-path operation falls back to per-record
inserts. -/
theorem vessel_no_fallback_counterexample :
    (process_vessel_batch (fun _ => false) 3 (fun _ => List.replicate 100 gdocEx)
      [Value.vNum 1]).result = some (0, 0, 0, 0) ∧
    (process_vessel_batch (fun _ => true) 3 (fun _ => List.replicate 100 gdocEx)
      [Value.vNum 1]).result = some (1, 1, 100, 100) := by
  decide

/-- C3 amended: only the bulk-ingestion write path has a per-record
fallback.  After `MAX_RETRIES` consecutive bulk-insert failures,
`process_chunk` (`parallel_insert.py` lines 50-67) runs the fallback exactly
once: it reconnects, inserts the chunk's records one at a time, never
raising for an individual bad record, and returns the count of records that
succeeded individually (0 if the fallback itself fails entirely).  The
filtering write path `process_vessel_batch` (`full_filter.py` lines 102-108)
has no per-record fallback: after `MAX_RETRIES` consecutive failures it
returns the all-zero counter tuple. -/
theorem write_fallback_amended (α : Type) (bulkOk : Nat → Bool) (reconnectOk : Bool)
    (records : List α) (oneOk : α → Bool) (attemptOk : Nat → Bool)
    (source : Value → List Doc) (batch : List Value) (M : Nat)
    (hM : 1 ≤ M) (hbulk : ∀ j, j < M → bulkOk j = false)
    (hatt : ∀ j, j < M → attemptOk j = false) :
    process_chunk bulkOk reconnectOk records oneOk M =
      ⟨some (if reconnectOk then records.countP (fun r => oneOk r) else 0), M, 1,
       List.replicate (M - 1) RETRY_DELAY⟩ ∧
    process_vessel_batch attemptOk M source batch =
      ⟨some (0, 0, 0, 0), M, List.replicate (M - 1) RETRY_DELAY⟩ := by
  constructor
  · exact fallback_after_exhaustion α bulkOk reconnectOk records oneOk M hM hbulk
  · have h := vbGo_allFail attemptOk M source batch hatt M 0 (by omega) hM
    rw [process_vessel_batch, h]

/-- C3 amended witness: with three always-failing attempts, the ingestion
chunk `[0, 1, 2, 3]` (even records inserting individually) salvages 2 records
through the one fallback run, while the filtering batch returns the all-zero
counters with no fallback. -/
theorem write_fallback_amended_witness :
    process_chunk (fun _ => false) true [0, 1, 2, 3] (fun n => n % 2 == 0) 3 =
      ⟨some 2, 3, 1, [5, 5]⟩ ∧
    process_vessel_batch (fun _ => false) 3 (fun _ => []) [] =
      ⟨some (0, 0, 0, 0), 3, [5, 5]⟩ := by
  have h := write_fallback_amended Nat (fun _ => false) true [0, 1, 2, 3]
    (fun n => n % 2 == 0) (fun _ => false) (fun _ => []) [] 3 (by decide)
    (fun j _ => rfl) (fun j _ => rfl)
  constructor
  · rw [h.1]
    decide
  · rw [h.2]
    decide

/-- Per-super-batch view of the feed loop: the batch of chunks emitted by
each consumed super-batch window, in order, mirroring `feedLoop`
(`parallel_insert.py` lines 109-149); the loop stops after the first window
whose pool results push `total_inserted` to the ceiling (line 148). -/
def feedWindows (L : List (List α)) (T : Nat) : List (Nat × Nat) → Nat → List (List (List α))
  | [], _ => []
  | (s, e) :: ws, tot =>
    let emitted := windowEmit T tot ((L.drop s).take (e - s))
    let tot2 := tot + (emitted.map List.length).sum
    if T ≤ tot2 then [emitted] else emitted :: feedWindows L T ws tot2

/-- The per-super-batch emissions of `main` (`parallel_insert.py` lines
104-149), under the same success assumption as `mainFeed`. -/
def mainFeedWindows (input : List α) (C T B : Nat) : List (List (List α)) :=
  feedWindows (chunksOf C input) T (mkWindows ((T + C - 1) / C) B) 0

theorem feedLoop_eq_flatten_feedWindows (L : List (List α)) (T : Nat) :
    ∀ (ws : List (Nat × Nat)) (tot : Nat),
    feedLoop L T ws tot = (feedWindows L T ws tot).flatten := by
  intro ws
  induction ws with
  | nil => intro tot; rfl
  | cons w ws ih =>
    obtain ⟨s, e⟩ := w
    intro tot
    by_cases hstop :
        T ≤ tot + ((windowEmit T tot ((L.drop s).take (e - s))).map List.length).sum
    · have e1 : feedLoop L T ((s, e) :: ws) tot
          = windowEmit T tot ((L.drop s).take (e - s)) := by
        show (if T ≤ tot + ((windowEmit T tot ((L.drop s).take (e - s))).map List.length).sum
            then windowEmit T tot ((L.drop s).take (e - s))
            else windowEmit T tot ((L.drop s).take (e - s)) ++ feedLoop L T ws _) = _
        rw [if_pos hstop]
      have e2 : feedWindows L T ((s, e) :: ws) tot
          = [windowEmit T tot ((L.drop s).take (e - s))] := by
        show (if T ≤ tot + ((windowEmit T tot ((L.drop s).take (e - s))).map List.length).sum
            then [windowEmit T tot ((L.drop s).take (e - s))]
            else windowEmit T tot ((L.drop s).take (e - s)) :: feedWindows L T ws _) = _
        rw [if_pos hstop]
      rw [e1, e2]
      simp
    · have e1 : feedLoop L T ((s, e) :: ws) tot
          = windowEmit T tot ((L.drop s).take (e - s)) ++ feedLoop L T ws
              (tot + ((windowEmit T tot ((L.drop s).take (e - s))).map List.length).sum) := by
        show (if T ≤ tot + ((windowEmit T tot ((L.drop s).take (e - s))).map List.length).sum
            then windowEmit T tot ((L.drop s).take (e - s))
            else windowEmit T tot ((L.drop s).take (e - s)) ++ feedLoop L T ws _) = _
        rw [if_neg hstop]
      have e2 : feedWindows L T ((s, e) :: ws) tot
          = windowEmit T tot ((L.drop s).take (e - s)) :: feedWindows L T ws
              (tot + ((windowEmit T tot ((L.drop s).take (e - s))).map List.length).sum) := by
        show (if T ≤ tot + ((windowEmit T tot ((L.drop s).take (e - s))).map List.length).sum
            then [windowEmit T tot ((L.drop s).take (e - s))]
            else windowEmit T tot ((L.drop s).take (e - s)) :: feedWindows L T ws _) = _
        rw [if_neg hstop]
      rw [e1, e2, List.flatten_cons, ih]

theorem feedWindows_partial_lt (L : List (List α)) (T : Nat) :
    ∀ (ws : List (Nat × Nat)) (tot : Nat) (i : Nat),
    i + 1 < (feedWindows L T ws tot).length →
    tot + ((((feedWindows L T ws tot).take (i + 1)).flatten.map List.length).sum) < T := by
  intro ws
  induction ws with
  | nil => intro tot i h; simp [feedWindows] at h
  | cons w ws ih =>
    obtain ⟨s, e⟩ := w
    intro tot i h
    by_cases hstop :
        T ≤ tot + ((windowEmit T tot ((L.drop s).take (e - s))).map List.length).sum
    · have e2 : feedWindows L T ((s, e) :: ws) tot
          = [windowEmit T tot ((L.drop s).take (e - s))] := by
        show (if T ≤ tot + ((windowEmit T tot ((L.drop s).take (e - s))).map List.length).sum
            then [windowEmit T tot ((L.drop s).take (e - s))]
            else windowEmit T tot ((L.drop s).take (e - s)) :: feedWindows L T ws _) = _
        rw [if_pos hstop]
      rw [e2] at h
      simp at h
    · have e2 : feedWindows L T ((s, e) :: ws) tot
          = windowEmit T tot ((L.drop s).take (e - s)) :: feedWindows L T ws
              (tot + ((windowEmit T tot ((L.drop s).take (e - s))).map List.length).sum) := by
        show (if T ≤ tot + ((windowEmit T tot ((L.drop s).take (e - s))).map List.length).sum
            then [windowEmit T tot ((L.drop s).take (e - s))]
            else windowEmit T tot ((L.drop s).take (e - s)) :: feedWindows L T ws _) = _
        rw [if_neg hstop]
      rw [e2] at h ⊢
      cases i with
      | zero =>
        simp only [List.take_succ_cons, List.take_zero, List.flatten_cons, List.flatten_nil,
          List.append_nil]
        omega
      | succ j =>
        simp only [List.length_cons] at h
        simp only [List.take_succ_cons, List.flatten_cons, List.map_append, List.sum_append]
        have := ih (tot + ((windowEmit T tot ((L.drop s).take (e - s))).map List.length).sum)
          j (by omega)
        omega

theorem feedWindows_length_le (L : List (List α)) (T : Nat) :
    ∀ (ws : List (Nat × Nat)) (tot : Nat),
    (feedWindows L T ws tot).length ≤ ws.length := by
  intro ws
  induction ws with
  | nil => intro tot; exact Nat.le_refl 0
  | cons w ws ih =>
    obtain ⟨s, e⟩ := w
    intro tot
    by_cases hstop :
        T ≤ tot + ((windowEmit T tot ((L.drop s).take (e - s))).map List.length).sum
    · have e2 : feedWindows L T ((s, e) :: ws) tot
          = [windowEmit T tot ((L.drop s).take (e - s))] := by
        show (if T ≤ tot + ((windowEmit T tot ((L.drop s).take (e - s))).map List.length).sum
            then [windowEmit T tot ((L.drop s).take (e - s))]
            else windowEmit T tot ((L.drop s).take (e - s)) :: feedWindows L T ws _) = _
        rw [if_pos hstop]
      rw [e2]
      simp
    · have e2 : feedWindows L T ((s, e) :: ws) tot
          = windowEmit T tot ((L.drop s).take (e - s)) :: feedWindows L T ws
              (tot + ((windowEmit T tot ((L.drop s).take (e - s))).map List.length).sum) := by
        show (if T ≤ tot + ((windowEmit T tot ((L.drop s).take (e - s))).map List.length).sum
            then [windowEmit T tot ((L.drop s).take (e - s))]
            else windowEmit T tot ((L.drop s).take (e - s)) :: feedWindows L T ws _) = _
        rw [if_neg hstop]
      rw [e2, List.length_cons, List.length_cons]
      exact Nat.succ_le_succ (ih _)

theorem feedWindows_stop_reason (L : List (List α)) (T : Nat) :
    ∀ (ws : List (Nat × Nat)) (tot : Nat),
    (feedWindows L T ws tot).length < ws.length →
    T ≤ tot + (((feedWindows L T ws tot).flatten.map List.length).sum) := by
  intro ws
  induction ws with
  | nil => intro tot h; simp [feedWindows] at h
  | cons w ws ih =>
    obtain ⟨s, e⟩ := w
    intro tot h
    by_cases hstop :
        T ≤ tot + ((windowEmit T tot ((L.drop s).take (e - s))).map List.length).sum
    · have e2 : feedWindows L T ((s, e) :: ws) tot
          = [windowEmit T tot ((L.drop s).take (e - s))] := by
        show (if T ≤ tot + ((windowEmit T tot ((L.drop s).take (e - s))).map List.length).sum
            then [windowEmit T tot ((L.drop s).take (e - s))]
            else windowEmit T tot ((L.drop s).take (e - s)) :: feedWindows L T ws _) = _
        rw [if_pos hstop]
      rw [e2]
      simp only [List.flatten_cons, List.flatten_nil, List.append_nil]
      omega
    · have e2 : feedWindows L T ((s, e) :: ws) tot
          = windowEmit T tot ((L.drop s).take (e - s)) :: feedWindows L T ws
              (tot + ((windowEmit T tot ((L.drop s).take (e - s))).map List.length).sum) := by
        show (if T ≤ tot + ((windowEmit T tot ((L.drop s).take (e - s))).map List.length).sum
            then [windowEmit T tot ((L.drop s).take (e - s))]
            else windowEmit T tot ((L.drop s).take (e - s)) :: feedWindows L T ws _) = _
        rw [if_neg hstop]
      rw [e2] at h ⊢
      simp only [List.length_cons] at h
      simp only [List.flatten_cons, List.map_append, List.sum_append]
      have := ih (tot + ((windowEmit T tot ((L.drop s).take (e - s))).map List.length).sum)
        (by omega)
      omega

/-- C5 amended: the chunk sequence fed to the workers is order-preserving and
size-bounded: every emitted chunk has at most `C` records and the
concatenation of the emitted chunks, in emission order, is a contiguous
leading segment of the input.  However, because the truncation inside a
super-batch compares against the inserted count as of the super-batch start,
the cumulative emitted count can exceed the row ceiling `T`.  Production
stops exactly at the first super-batch boundary at which the cumulative count
has reached `T`: the feed is the concatenation of per-window emissions, every
consumed window except possibly the last leaves the cumulative count below
`T`, and if any configured window is left unconsumed then the cumulative
count of the consumed ones has reached `T`. -/
theorem chunker_partition_amended (α : Type) (input : List α) (C T B : Nat)
    (hC : 1 ≤ C) (hB : 1 ≤ B) :
    (∀ ch ∈ mainFeed input C T B, ch.length ≤ C) ∧
    (∃ t, (mainFeed input C T B).flatten ++ t = input) ∧
    mainFeed input C T B = (mainFeedWindows input C T B).flatten ∧
    (∀ i, i + 1 < (mainFeedWindows input C T B).length →
      ((((mainFeedWindows input C T B).take (i + 1)).flatten.map List.length).sum) < T) ∧
    (mainFeedWindows input C T B).length ≤ (mkWindows ((T + C - 1) / C) B).length ∧
    ((mainFeedWindows input C T B).length < (mkWindows ((T + C - 1) / C) B).length →
      T ≤ (((mainFeedWindows input C T B).flatten.map List.length).sum)) := by
  refine ⟨?_, ?_, ?_, ?_, ?_, ?_⟩
  · exact feedLoop_length_le (chunksOf C input) C T
      (fun ch hch => chunksOf_length_le C input ch hch) _ 0
  · have h := feedLoop_flatten_prefix (chunksOf C input) C T ((T + C - 1) / C)
      (fun i ch hch hlt => chunksOf_full C input i ch hch hlt)
      (htotal_of_ceil C T)
      (mkWindows ((T + C - 1) / C) B) 0 0 (mkWindows_ok _ B hB) (by simp)
    obtain ⟨t, ht⟩ := h
    simp only [List.take_zero, List.flatten_nil, List.nil_append] at ht
    refine ⟨t, ?_⟩
    rw [mainFeed, ht]
    exact chunksOf_flatten C hC input
  · exact feedLoop_eq_flatten_feedWindows (chunksOf C input) T _ 0
  · intro i h
    have h2 := feedWindows_partial_lt (chunksOf C input) T
      (mkWindows ((T + C - 1) / C) B) 0 i h
    simpa using h2
  · exact feedWindows_length_le (chunksOf C input) T _ 0
  · intro h
    have h2 := feedWindows_stop_reason (chunksOf C input) T
      (mkWindows ((T + C - 1) / C) B) 0 h
    simpa using h2

/-- C5 amended witness: with 12 input records, chunk size 5, ceiling 20 and
super-batch size 10, every emitted chunk has at most 5 records, the
concatenation is a leading segment of the input, the feed is the flattening
of the per-window emissions, every non-final consumed window stays below the
ceiling, and no window disappears without the ceiling being reached. -/
theorem chunker_partition_amended_witness :
    (∀ ch ∈ mainFeed (List.range 12) 5 20 10, ch.length ≤ 5) ∧
    (∃ t, (mainFeed (List.range 12) 5 20 10).flatten ++ t = List.range 12) ∧
    mainFeed (List.range 12) 5 20 10 = (mainFeedWindows (List.range 12) 5 20 10).flatten ∧
    (∀ i, i + 1 < (mainFeedWindows (List.range 12) 5 20 10).length →
      ((((mainFeedWindows (List.range 12) 5 20 10).take (i + 1)).flatten.map
        List.length).sum) < 20) ∧
    (mainFeedWindows (List.range 12) 5 20 10).length ≤ (mkWindows ((20 + 5 - 1) / 5) 10).length ∧
    ((mainFeedWindows (List.range 12) 5 20 10).length < (mkWindows ((20 + 5 - 1) / 5) 10).length →
      20 ≤ (((mainFeedWindows (List.range 12) 5 20 10).flatten.map List.length).sum)) :=
  chunker_partition_amended Nat (List.range 12) 5 20 10 (by decide) (by decide)
